import Mathlib

/-!
Verification of the comment-collection and labeling pipeline of the
Public-Sentiment-Analysis repository.

The Python sources are shallowly embedded as executable Lean definitions:
  * `scripts/classifier.py`   → `classify_nature_alignment`
  * `scripts/process_comments.py` → `keyword_label`
  * `scripts/cleaning.py`     → `clean_text`
  * `scripts/scraper.py`      → `retryGo`/`execRetry`, `fetchTLCGo`,
                                `fetch_comments_for_videos`,
                                `fetchVidsPages`, `resolve_channel_id`
  * `main.py` (batch loop)    → `processChannels`

Remote API calls are modeled as explicit oracles (functions from the
attempt / page index to the response or an HTTP status error), so every
control path of the Python code is represented by a pure computation.
Python `str.lower` / `\w` are modeled over the ASCII range (all keyword
patterns in the sources are ASCII).
-/

/-- Case-map used to model Python `str.lower` (ASCII range): each
character is lower-cased individually. -/
def lowerStr (s : String) : String := String.mk (s.toList.map Char.toLower)

/-- Python whitespace (`str.strip` / regex `\s`, ASCII range). -/
def isSpaceB (c : Char) : Bool :=
  c = ' ' || c = '\t' || c = '\n' || c = '\r' || c = '\x0b' || c = '\x0c'

/-- Remove the maximal run of trailing whitespace. -/
def dropTrailingSpace : List Char → List Char
  | [] => []
  | c :: cs =>
    let r := dropTrailingSpace cs
    if r.isEmpty && isSpaceB c then [] else c :: r

/-- Python `str.strip()`: remove leading and trailing whitespace. -/
def pyStrip (l : List Char) : List Char :=
  dropTrailingSpace (l.dropWhile isSpaceB)

/-- Python `str.strip()` on `String`s. -/
def pyStripStr (s : String) : String := String.mk (pyStrip s.toList)

/-- `needle` occurs contiguously in `hay` (scan every suffix). -/
def infixOfB (needle : List Char) : List Char → Bool
  | [] => needle.isEmpty
  | c :: cs => needle.isPrefixOf (c :: cs) || infixOfB needle cs

/-- Substring containment: `needle` occurs contiguously in `hay`
(the semantics of Python's `needle in hay`). -/
def strContains (hay needle : String) : Bool :=
  infixOfB needle.toList hay.toList

/-- `_NATURE_ALIGNED` keyword list of `scripts/classifier.py`. -/
def NATURE_ALIGNED_KEYWORDS : List String :=
  ["lightness", "clarity", "natural energy", "deep sleep", "satvic",
   "prana", "shuddhi", "tapas", "ahimsa", "mother earth",
   "seasonal eating", "living food", "returning to my roots", "new person"]

/-- `_NOT_NATURE_ALIGNED` keyword list of `scripts/classifier.py`. -/
def NOT_NATURE_ALIGNED_KEYWORDS : List String :=
  ["weight loss", "sugar levels", "kilograms", "science says otherwise",
   "protein deficiency", "too expensive", "office lunch", "society pressure",
   "cant live without tea", "can t live without tea", "too bland"]

/-- `has_aligned` of `classify_nature_alignment` (`value` is the lowered text). -/
def hasAlignedKeyword (value : String) : Bool :=
  NATURE_ALIGNED_KEYWORDS.any (fun k => strContains value k)

/-- `has_not` of `classify_nature_alignment` (`value` is the lowered text). -/
def hasNotAlignedKeyword (value : String) : Bool :=
  NOT_NATURE_ALIGNED_KEYWORDS.any (fun k => strContains value k)

/-- `scripts/classifier.py::classify_nature_alignment`.
`(text or "")` is the identity on the `str` inputs modeled here. -/
def classify_nature_alignment (text : String) : Int :=
  let value := lowerStr text
  if hasAlignedKeyword value && !hasNotAlignedKeyword value then 1
  else if hasNotAlignedKeyword value && !hasAlignedKeyword value then 0
  else -1

/-- A compiled pattern of `scripts/process_comments.py`: either a plain
substring or a `\b…\b` word-delimited substring. -/
inductive Pat where
  | lit : String → Pat
  | word : String → Pat
deriving DecidableEq

/-- Python `\w` over the ASCII range: `[A-Za-z0-9_]`. -/
def wordCharB (c : Char) : Bool := c.isAlphanum || c = '_'

/-- If `l` starts with the pattern characters `ps`, return the remainder. -/
def stripPrefixChars : List Char → List Char → Option (List Char)
  | [], s => some s
  | _ :: _, [] => none
  | p :: ps, c :: cs => if c = p then stripPrefixChars ps cs else none

/-- Word-boundary check on the left of a candidate match position
(`prev` is the character right before the position, if any). -/
def boundaryBefore : Option Char → Bool
  | none => true
  | some p => !wordCharB p

/-- Word-boundary check on the right of a candidate match. -/
def boundaryAfterOk : List Char → Bool
  | [] => true
  | r :: _ => !wordCharB r

/-- Scan for a `\b w \b` occurrence (the keyword patterns begin and end
with word characters, so `\b` holds iff the neighbour is not `\w`). -/
def wordSearchGo (w : List Char) (prev : Option Char) : List Char → Bool
  | [] => false
  | c :: cs =>
    (boundaryBefore prev &&
      (match stripPrefixChars w (c :: cs) with
       | some rest => boundaryAfterOk rest
       | none => false)) || wordSearchGo w (some c) cs

/-- `re.search` of a compiled keyword pattern, as a Boolean. -/
def reSearchB (p : Pat) (t : List Char) : Bool :=
  match p with
  | .lit s => infixOfB s.toList t
  | .word s => wordSearchGo s.toList none t

/-- `POSITIVE_KEYWORDS` of `scripts/process_comments.py`. -/
def POSITIVE_KEYWORDS : List Pat :=
  [.word "halka", .lit "lightness", .lit "clarity", .lit "natural energy",
   .lit "deep sleep", .lit "satvic", .lit "prana", .lit "shuddhi",
   .lit "tapas", .lit "ahimsa", .lit "mother earth", .lit "seasonal eating",
   .lit "living food", .lit "returning to my roots",
   .lit "i feel like a new person"]

/-- `NEGATIVE_KEYWORDS` of `scripts/process_comments.py`. -/
def NEGATIVE_KEYWORDS : List Pat :=
  [.lit "weight loss", .lit "sugar", .lit "kilograms",
   .lit "protein deficiency", .lit "too expensive",
   .lit "family won\x27t allow", .lit "office lunch",
   .lit "society pressure", .lit "i can\x27t live without tea",
   .lit "too bland", .lit "tasteless", .lit "milk", .lit "medicine"]

/-- `pos` of `keyword_label` (`t` is the lowered text). -/
def posHit (t : String) : Bool :=
  POSITIVE_KEYWORDS.any (fun p => reSearchB p t.toList)

/-- `neg` of `keyword_label` (`t` is the lowered text). -/
def negHit (t : String) : Bool :=
  NEGATIVE_KEYWORDS.any (fun p => reSearchB p t.toList)

/-- `scripts/process_comments.py::keyword_label`. The `isinstance` guard
is vacuous on the `str` inputs modeled here. -/
def keyword_label (text : String) : Int :=
  if pyStripStr text = "" then -1
  else
    let t := lowerStr text
    if posHit t && !negHit t then 1
    else if negHit t && !posHit t then 0
    else if posHit t && negHit t then 1
    else -1

/-- Statuses treated as transient by `_execute_with_retry` (429/500/503). -/
def isTransientStatus (s : Nat) : Bool := s = 429 || s = 500 || s = 503

/-- `scripts/scraper.py::_execute_with_retry`.  The oracle `step` gives the
outcome of each execution attempt (indexed from 0); `attempt` is the number
of failures so far and `remaining = max_retries - attempt` counts the retry
budget left (the Python guard `attempt > max_retries` after incrementing is
exactly `remaining = 0` here).  The result is paired with the chronological
list of backoff waits `min (2 ^ attempt) 30` performed. -/
def retryGo {α : Type} (step : Nat → Except Nat α) (attempt : Nat) :
    Nat → Except Nat α × List Nat
  | 0 =>
    match step attempt with
    | .ok a => (.ok a, [])
    | .error s => (.error s, [])
  | remaining + 1 =>
    match step attempt with
    | .ok a => (.ok a, [])
    | .error s =>
      if isTransientStatus s then
        let r := retryGo step (attempt + 1) remaining
        (r.1, min (2 ^ (attempt + 1)) 30 :: r.2)
      else (.error s, [])

/-- `_execute_with_retry` with its default retry ceiling `max_retries = 5`. -/
def execRetry {α : Type} (step : Nat → Except Nat α) : Except Nat α × List Nat :=
  retryGo step 0 5

/-- The backoff schedule from retry state `k`: waits `min (2^(k+1+i)) 30`. -/
def expWaits (k n : Nat) : List Nat :=
  (List.range n).map (fun i => min (2 ^ (k + 1 + i)) 30)

/-- One comment as delivered by the remote listing (`snippet` fields used
by `_fetch_top_level_comments`). -/
structure CommentSnippet where
  textDisplay : String
  publishedAt : String
  likeCount : Int
  authorDisplayName : String
deriving DecidableEq

/-- `scripts/scraper.py::CommentRecord` (frozen dataclass). -/
structure CommentRecord where
  video_title : String
  comment_text : String
  comment_date : String
  like_count : Int
  username_hash : String
deriving DecidableEq

/-- One page of the comment-thread listing: its items and whether a
`nextPageToken` (continuation token) is present. -/
structure PageResp where
  items : List CommentSnippet
  hasNext : Bool
deriving DecidableEq

/-- The record built for one comment by `_fetch_top_level_comments`;
the author digest function (`hashlib.sha256(...).hexdigest()`) is passed
in as `hashHex`. -/
def mkRecord (hashHex : String → String) (videoTitle : String)
    (s : CommentSnippet) : CommentRecord :=
  { video_title := videoTitle
    comment_text := s.textDisplay
    comment_date := s.publishedAt
    like_count := s.likeCount
    username_hash := hashHex s.authorDisplayName }

/-- Outcome of `_fetch_top_level_comments` as consumed via `list(...)`:
the collected records (or the propagated HTTP error status, which
discards the partially yielded records exactly as `list()` does), plus
the trace of issued page requests (their `maxResults` batch sizes) and of
backoff waits. -/
structure FetchOut where
  result : Except Nat (List CommentRecord)
  reqs : List Nat
  waits : List Nat

/-- `scripts/scraper.py::_fetch_top_level_comments`.  Each element of
`pages` is the attempt-indexed oracle for one page request (fed through
`_execute_with_retry`); `fetched`/`acc` thread the loop state.  A 403/404
error ends retrieval keeping `acc`; any other error propagates; otherwise
up to `limit - fetched` items are consumed and the loop continues while
the limit is not reached and a continuation token is present.  (If the
oracle list is exhausted while the loop would continue, the model stops
with the collected records; the theorems below only use oracles whose
last page carries no continuation token.) -/
def fetchTLCGo (hashHex : String → String) (title : String) (limit : Nat) :
    List (Nat → Except Nat PageResp) → Nat → List CommentRecord → FetchOut
  | pages, fetched, acc =>
    if fetched < limit then
      match pages with
      | [] => ⟨.ok acc, [], []⟩
      | pageFn :: rest =>
        let batchSize := min 100 (limit - fetched)
        match execRetry pageFn with
        | (.error status, ws) =>
          if status = 403 ∨ status = 404 then ⟨.ok acc, [batchSize], ws⟩
          else ⟨.error status, [batchSize], ws⟩
        | (.ok resp, ws) =>
          let taken := resp.items.take (limit - fetched)
          let recs := taken.map (mkRecord hashHex title)
          let fetched2 := fetched + taken.length
          if fetched2 ≥ limit || !resp.hasNext then
            ⟨.ok (acc ++ recs), [batchSize], ws⟩
          else
            let out := fetchTLCGo hashHex title limit rest fetched2 (acc ++ recs)
            ⟨out.result, batchSize :: out.reqs, ws ++ out.waits⟩
    else ⟨.ok acc, [], []⟩

/-- `_fetch_top_level_comments` from its initial state. -/
def fetchTopLevelComments (hashHex : String → String) (title : String)
    (limit : Nat) (pages : List (Nat → Except Nat PageResp)) : FetchOut :=
  fetchTLCGo hashHex title limit pages 0 []

/-- Well-formed continuation tokens: every page except the last carries a
token, the last does not. -/
def tokenChain : List PageResp → Bool
  | [] => true
  | [p] => !p.hasNext
  | p :: q :: rest => p.hasNext && tokenChain (q :: rest)

/-- The batch sizes the fetch loop requests, given the per-page item
counts delivered by the source: `min 100 (limit - fetched)` per page,
stopping once the limit is reached or the pages end. -/
def expectedReqs (limit : Nat) : Nat → List Nat → List Nat
  | _, [] => []
  | fetched, c :: cs =>
    min 100 (limit - fetched) ::
      (if fetched + c ≥ limit then [] else expectedReqs limit (fetched + c) cs)

/-- Sample data for the C7 witness. -/
def sampleSnipA : CommentSnippet := ⟨"nice", "2024-01-01", 3, "alice"⟩

/-- Sample data for the C7 witness. -/
def sampleSnipB : CommentSnippet := ⟨"bad", "2024-01-02", 0, "bob"⟩

/-- A two-page source delivering two comments with a well-formed token chain. -/
def samplePages : List PageResp := [⟨[sampleSnipA], true⟩, ⟨[sampleSnipB], false⟩]

/-- The remote surface used per video by `fetch_comments_for_videos`:
a title-lookup oracle (`videos().list`, `None` = no items, giving title
`""`) and the page oracles of the comment-thread listing. -/
structure VideoSource where
  titleApi : Nat → Except Nat (Option String)
  pages : List (Nat → Except Nat PageResp)

/-- Errors surfaced by `fetch_comments_for_videos`: the `ValueError` of
the limit validation, or a propagated HTTP status. -/
inductive FetchErr where
  | validation : FetchErr
  | http : Nat → FetchErr
deriving DecidableEq

/-- `scripts/scraper.py::_get_video_title` (empty item list gives `""`;
an HTTP error propagates). -/
def getVideoTitle (v : VideoSource) : Except Nat String :=
  match execRetry v.titleApi with
  | (.ok t, _) => .ok (t.getD "")
  | (.error s, _) => .error s

/-- The per-video loop of `fetch_comments_for_videos`; the second
component counts the issued API requests (one title lookup per reached
video plus the issued comment-page requests). -/
def fcvGo (hashHex : String → String) (limit : Nat) :
    List VideoSource → Except FetchErr (List CommentRecord) × Nat
  | [] => (.ok [], 0)
  | v :: rest =>
    match getVideoTitle v with
    | .error s => (.error (.http s), 1)
    | .ok title =>
      let out := fetchTopLevelComments hashHex title limit v.pages
      match out.result with
      | .error s => (.error (.http s), 1 + out.reqs.length)
      | .ok recs =>
        let r := fcvGo hashHex limit rest
        match r.1 with
        | .error e => (.error e, 1 + out.reqs.length + r.2)
        | .ok more => (.ok (recs ++ more), 1 + out.reqs.length + r.2)

/-- `scripts/scraper.py::fetch_comments_for_videos`: the limit guard runs
before any request is issued. -/
def fetch_comments_for_videos (hashHex : String → String)
    (videos : List VideoSource) (per_video_limit : Int) :
    Except FetchErr (List CommentRecord) × Nat :=
  if per_video_limit < 100 ∨ per_video_limit > 500 then (.error .validation, 0)
  else fcvGo hashHex per_video_limit.toNat videos

/-- One page of the uploads-playlist listing (`playlistItems().list`,
`maxResults=50`): the `videoId` of each item (`""` models a missing id,
which the loop skips) and whether a continuation token is present. -/
structure PlaylistPage where
  items : List String
  hasNext : Bool
deriving DecidableEq

/-- The cap test `max_videos is not None and len(video_ids) >= max_videos`. -/
def capReached (maxVideos : Option Nat) (n : Nat) : Bool :=
  match maxVideos with
  | none => false
  | some k => n ≥ k

/-- The inner item loop of `fetch_video_ids_from_channel`: append each
truthy video id and stop as soon as the cap is reached (the Boolean says
whether the cap fired). -/
def collectVids (maxVideos : Option Nat) (acc : List String) :
    List String → List String × Bool
  | [] => (acc, false)
  | v :: vs =>
    if v = "" then collectVids maxVideos acc vs
    else
      let acc2 := acc ++ [v]
      if capReached maxVideos acc2.length then (acc2, true)
      else collectVids maxVideos acc2 vs

/-- The page loop of `fetch_video_ids_from_channel`, paired with the
number of playlist-page requests issued.  (If the oracle list is
exhausted while the loop would continue, the model stops with the
collected ids; the theorems below only use `mkUploadPages` oracles,
whose last page carries no continuation token.) -/
def fetchVidsPages (maxVideos : Option Nat) :
    List PlaylistPage → List String → List String × Nat
  | [], acc => (acc, 0)
  | pg :: rest, acc =>
    let r := collectVids maxVideos acc pg.items
    if r.2 then (r.1, 1)
    else if pg.hasNext then
      let out := fetchVidsPages maxVideos rest r.1
      (out.1, 1 + out.2)
    else (r.1, 1)

/-- `scripts/scraper.py::fetch_video_ids_from_channel`.  The uploads
lookup (`_get_uploads_playlist_id`) is abstracted by its returned value:
`none` models its terminal `ValueError`s. -/
def fetch_video_ids_from_channel (uploadsPlaylist : Option String)
    (pages : List PlaylistPage) (maxVideos : Option Nat) :
    Except String (List String × Nat) :=
  match uploadsPlaylist with
  | none => .error "Uploads playlist not available for channel"
  | some _ => .ok (fetchVidsPages maxVideos pages [])

/-- A channel whose uploads collection yields exactly `ids`, paginated in
the collaborator's batches of 50 with a well-formed token chain. -/
def mkUploadPages (ids : List String) : List PlaylistPage :=
  if ids = [] then []
  else if ids.length ≤ 50 then [⟨ids, false⟩]
  else ⟨ids.take 50, true⟩ :: mkUploadPages (ids.drop 50)
termination_by ids.length
decreasing_by simp [List.length_drop]; omega

/-- Case-insensitive literal-prefix match (pattern given lower-case);
returns the remaining input on success. -/
def ciPref : List Char → List Char → Option (List Char)
  | [], s => some s
  | _ :: _, [] => none
  | p :: ps, c :: cs => if c.toLower = p then ciPref ps cs else none

/-- The character class `[0-9A-Za-z_-]` of the canonical-id regex. -/
def channelIdChar (c : Char) : Bool := c.isAlphanum || c = '_' || c = '-'

/-- A match of `(?i)(?:youtube\.com/channel/)(UC[0-9A-Za-z_-]{20,})`
anchored at the head of `s`: the captured group (`UC` plus the maximal
id-character run, at least 20 long, in the input's original case). -/
def extractChannelIdAt (s : List Char) : Option (List Char) :=
  match ciPref "youtube.com/channel/".toList s with
  | none => none
  | some rest =>
    match rest with
    | u :: c :: rest2 =>
      if u.toLower = 'u' && c.toLower = 'c' then
        let run := rest2.takeWhile channelIdChar
        if run.length ≥ 20 then some (u :: c :: run) else none
      else none
    | _ => none

/-- `re.search` of the canonical-id pattern: leftmost match wins. -/
def searchChannelId : List Char → Option (List Char)
  | [] => none
  | c :: cs =>
    match extractChannelIdAt (c :: cs) with
    | some r => some r
    | none => searchChannelId cs

/-- `scripts/scraper.py::_try_extract_channel_id`: regex extraction, then
the bare-id check `raw.startswith("UC") and len(raw) >= 20`. -/
def tryExtractChannelId (raw : String) : Option String :=
  match searchChannelId raw.toList with
  | some cs => some (String.mk cs)
  | none =>
    if "UC".toList.isPrefixOf raw.toList && raw.toList.length ≥ 20 then some raw
    else none

/-- The negated character class `[^/?#]` of the handle regex. -/
def handleEndChar (c : Char) : Bool := c = '/' || c = '?' || c = '#'

/-- A match of `(?i)(?:youtube\.com/)(@[^/?#]+)` anchored at the head of
`s`: the captured group (`@` plus the maximal run of non-terminator
characters, at least one long). -/
def extractHandleAt (s : List Char) : Option (List Char) :=
  match ciPref "youtube.com/".toList s with
  | none => none
  | some rest =>
    match rest with
    | a :: rest2 =>
      if a = '@' then
        let run := rest2.takeWhile (fun c => !handleEndChar c)
        if run.length ≥ 1 then some (a :: run) else none
      else none
    | [] => none

/-- `re.search` of the handle pattern: leftmost match wins. -/
def searchHandle : List Char → Option (List Char)
  | [] => none
  | c :: cs =>
    match extractHandleAt (c :: cs) with
    | some r => some r
    | none => searchHandle cs

/-- `scripts/scraper.py::_try_extract_handle`: regex extraction, then the
bare check `raw.startswith("@") and len(raw) > 1`. -/
def tryExtractHandle (raw : String) : Option String :=
  match searchHandle raw.toList with
  | some cs => some (String.mk cs)
  | none =>
    if "@".toList.isPrefixOf raw.toList && raw.toList.length > 1 then some raw
    else none

/-- `scripts/scraper.py::_resolve_channel_id_from_handle`: clean the
handle (`lstrip("@").strip()`), fail on empty, else ask the remote; the
oracle `handleApi` stands for the `forHandle` lookup returning the
cleaned channel id of the first item, or `none` when there is none. -/
def resolveChannelIdFromHandle (handleApi : String → Option String)
    (handle : String) : Option String :=
  let h := pyStripStr (String.mk (handle.toList.dropWhile (fun c => c = '@')))
  if h = "" then none else handleApi h

/-- `scripts/scraper.py::resolve_channel_id`: strategy (a) direct pattern
extraction, then (b) handle resolution, then (c) the channel-type search
(`searchApi`); exhausting all strategies is a terminal failure. -/
def resolve_channel_id (handleApi searchApi : String → Option String)
    (value : String) : Except String String :=
  let raw := pyStripStr value
  if raw = "" then .error "Missing channel identifier"
  else
    match tryExtractChannelId raw with
    | some cid => .ok cid
    | none =>
      match tryExtractHandle raw with
      | some handle =>
        match resolveChannelIdFromHandle handleApi handle with
        | some cid => .ok cid
        | none =>
          match searchApi raw with
          | some cid => .ok cid
          | none => .error "Unable to resolve channel_id"
      | none =>
        match searchApi raw with
        | some cid => .ok cid
        | none => .error "Unable to resolve channel_id"

/-- One entry of `channels.json` as consumed by `main.py --all`. -/
structure ChannelEntry where
  name : String
  channelId : String
deriving DecidableEq

/-- How a channel's processing dies in the `--all` loop: the
`SystemExit` raised when auto-resolution fails, or an exception
propagating out of `_run_for_channel`. -/
inductive BatchErr where
  | resolveFailed : String → BatchErr
  | runFailed : Nat → BatchErr
deriving DecidableEq

/-- The `--all` batch loop of `main.py::main` (lines 126-151): for each
entry, resolve the channel id if missing (`SystemExit` on failure, which
ends the whole run) and run `_run_for_channel` (whose exceptions
propagate uncaught, also ending the run).  Returns the names of the
channels fully processed and the terminating error, if any. -/
def processChannels (resolver : String → Except String String)
    (runner : String → String → Except Nat Unit) :
    List ChannelEntry → List String × Option BatchErr
  | [] => ([], none)
  | ch :: rest =>
    let name := pyStripStr ch.name
    let cid0 := pyStripStr ch.channelId
    match (if cid0 = "" then resolver name else .ok cid0) with
    | .error m => ([], some (.resolveFailed m))
    | .ok cid =>
      match runner name cid with
      | .error e => ([], some (.runFailed e))
      | .ok _ =>
        let r := processChannels resolver runner rest
        (name :: r.1, r.2)

/-- Tail of a URL match after the scheme: requires `://` (case kept by
`(?i)`) followed by at least one non-whitespace character (`\S+`,
greedy), returning the total match length. -/
def urlTail (consumed : Nat) (r : List Char) : Option Nat :=
  match ciPref "://".toList r with
  | none => none
  | some r2 =>
    let run := r2.takeWhile (fun c => !isSpaceB c)
    if run.length ≥ 1 then some (consumed + 3 + run.length) else none

/-- A match of `_URL_RE = (https?://\S+|www\.\S+)` (IGNORECASE) anchored
at the head of `l`, trying the alternatives left to right and the
optional `s` greedily, as the Python engine does. -/
def matchURLAt (l : List Char) : Option Nat :=
  match ciPref "http".toList l with
  | some r1 =>
    (match r1 with
     | c :: r2 =>
       if c.toLower = 's' then
         match urlTail 5 r2 with
         | some n => some n
         | none => urlTail 4 r1
       else urlTail 4 r1
     | [] => urlTail 4 r1)
  | none =>
    match ciPref "www.".toList l with
    | some r1 =>
      let run := r1.takeWhile (fun c => !isSpaceB c)
      if run.length ≥ 1 then some (4 + run.length) else none
    | none => none

/-- `_URL_RE.sub(" ", ·)` as a single pass.  Because both alternatives
consist solely of non-whitespace characters and end with a greedy `\S+`,
every match extends exactly to the next whitespace character, so
replacing non-overlapping matches is the same as emitting one space at a
match start and skipping until the next whitespace. -/
def urlSubRun (skipping : Bool) : List Char → List Char
  | [] => []
  | c :: cs =>
    if skipping then
      if isSpaceB c then c :: urlSubRun false cs
      else urlSubRun true cs
    else
      match matchURLAt (c :: cs) with
      | some _ => ' ' :: urlSubRun true cs
      | none => c :: urlSubRun false cs

/-- `_URL_RE.sub(" ", ·)`. -/
def urlSub (l : List Char) : List Char := urlSubRun false l

/-- The `_EMOJI_RE` character class of `scripts/cleaning.py` (the twelve
code-point ranges of the source, verbatim). -/
def isEmojiChar (c : Char) : Bool :=
  (0x1F1E0 ≤ c.toNat && c.toNat ≤ 0x1F1FF) || (0x1F300 ≤ c.toNat && c.toNat ≤ 0x1F5FF) ||
  (0x1F600 ≤ c.toNat && c.toNat ≤ 0x1F64F) || (0x1F680 ≤ c.toNat && c.toNat ≤ 0x1F6FF) ||
  (0x1F700 ≤ c.toNat && c.toNat ≤ 0x1F77F) || (0x1F780 ≤ c.toNat && c.toNat ≤ 0x1F7FF) ||
  (0x1F800 ≤ c.toNat && c.toNat ≤ 0x1F8FF) || (0x1F900 ≤ c.toNat && c.toNat ≤ 0x1F9FF) ||
  (0x1FA00 ≤ c.toNat && c.toNat ≤ 0x1FA6F) || (0x1FA70 ≤ c.toNat && c.toNat ≤ 0x1FAFF) ||
  (0x2702 ≤ c.toNat && c.toNat ≤ 0x27B0) || (0x24C2 ≤ c.toNat && c.toNat ≤ 0x1F251)

/-- `_EMOJI_RE.sub(" ", ·)`: each maximal run (`[...]+`) of emoji-class
characters becomes one space. -/
def emojiSubRun (inRun : Bool) : List Char → List Char
  | [] => []
  | c :: cs =>
    if isEmojiChar c then
      if inRun then emojiSubRun true cs else ' ' :: emojiSubRun true cs
    else c :: emojiSubRun false cs

/-- `_EMOJI_RE.sub(" ", ·)`. -/
def emojiSub (l : List Char) : List Char := emojiSubRun false l

/-- The kept class of `re.sub(r"[^0-9a-zऀ-ॿ\s]", " ", ·)`:
digits, lower-case ASCII letters, Devanagari, or whitespace. -/
def cleanKeepChar (c : Char) : Bool :=
  (0x30 ≤ c.toNat && c.toNat ≤ 0x39) || (0x61 ≤ c.toNat && c.toNat ≤ 0x7A) ||
  (0x900 ≤ c.toNat && c.toNat ≤ 0x97F) || isSpaceB c

/-- `re.sub(r"[^0-9a-zऀ-ॿ\s]", " ", ·)`: every other character
becomes a space. -/
def filterSub (l : List Char) : List Char :=
  l.map (fun c => if cleanKeepChar c then c else ' ')

/-- `re.sub(r"\s+", " ", ·)`: each maximal whitespace run becomes one
space. -/
def squeezeRun (inRun : Bool) : List Char → List Char
  | [] => []
  | c :: cs =>
    if isSpaceB c then
      if inRun then squeezeRun true cs else ' ' :: squeezeRun true cs
    else c :: squeezeRun false cs

/-- `re.sub(r"\s+", " ", ·)`. -/
def squeezeSpace (l : List Char) : List Char := squeezeRun false l

/-- The pipeline of `scripts/cleaning.py::clean_text` on the character
list: URL removal, emoji removal, lower-casing, character-class
filtering, whitespace squeezing, strip. -/
def cleanList (l : List Char) : List Char :=
  pyStrip (squeezeSpace (filterSub ((emojiSub (urlSub l)).map Char.toLower)))

/-- `scripts/cleaning.py::clean_text`; `none` models the `None` input. -/
def clean_text : Option String → String
  | none => ""
  | some s => String.mk (cleanList s.toList)

/-- Digits, lower-case ASCII letters, or Devanagari — the non-space
characters the claim allows in a cleaned text. -/
def solidChar (c : Char) : Bool :=
  (0x30 ≤ c.toNat && c.toNat ≤ 0x39) || (0x61 ≤ c.toNat && c.toNat ≤ 0x7A) ||
  (0x900 ≤ c.toNat && c.toNat ≤ 0x97F)

/-- No two adjacent spaces ("single internal spaces"). -/
def noAdjSpaces : List Char → Bool
  | a :: b :: t => (!(a = ' ') || !(b = ' ')) && noAdjSpaces (b :: t)
  | _ => true

/-- The first character, if any, is not whitespace. -/
def headNotSpace : List Char → Bool
  | [] => true
  | c :: _ => !isSpaceB c

/-- The last character, if any, is not whitespace. -/
def lastNotSpace : List Char → Bool
  | [] => true
  | [c] => !isSpaceB c
  | _ :: c :: t => lastNotSpace (c :: t)

/-- The output shape claimed for `clean_text`: only lowercase ASCII
alphanumerics, Devanagari (U+0900-U+097F) and spaces, single internal
spaces, and no leading or trailing whitespace. -/
def cleanShape (l : List Char) : Bool :=
  l.all (fun c => solidChar c || c = ' ') && noAdjSpaces l &&
    headNotSpace l && lastNotSpace l

/-- C2 counterexample: on the concrete text "clarity weight loss" both
keyword families hit, yet `classify_nature_alignment` returns -1 (the
unclassified default, rendered as "Unknown" by `analysis.py`), not the
not-aligned label 0 that the claim attributes to this code path;
`keyword_label` resolves the same tie to 1 (aligned). -/
theorem classify_tie_counterexample :
    hasAlignedKeyword (lowerStr "clarity weight loss") = true ∧
    hasNotAlignedKeyword (lowerStr "clarity weight loss") = true ∧
    classify_nature_alignment "clarity weight loss" = -1 ∧
    classify_nature_alignment "clarity weight loss" ≠ 0 ∧
    keyword_label "clarity weight loss" = 1 :=
  ⟨by decide, by decide, by decide, by decide, by decide⟩

/-- C2 (amended): whenever a text hits both an aligned keyword and a
not-aligned keyword, `classify_nature_alignment` falls through to the
default -1 (unclassified) while `keyword_label` (on a non-blank text
hitting both pattern families) returns 1 (aligned): the two code paths
resolve the tie inconsistently, but the classifier's tie value is the
default -1, not the not-aligned label 0. -/
theorem classify_vs_keyword_label_tie (s t : String)
    (hs1 : hasAlignedKeyword (lowerStr s) = true)
    (hs2 : hasNotAlignedKeyword (lowerStr s) = true)
    (ht0 : pyStripStr t ≠ "")
    (ht1 : posHit (lowerStr t) = true)
    (ht2 : negHit (lowerStr t) = true) :
    classify_nature_alignment s = -1 ∧ keyword_label t = 1 := by
  constructor
  · simp [classify_nature_alignment, hs1, hs2]
  · simp [keyword_label, ht0, ht1, ht2]

/-- C2 witness: the amended tie statement evaluated on a concrete text. -/
theorem classify_vs_keyword_label_tie_witness :
    classify_nature_alignment "clarity weight loss" = -1 ∧
    keyword_label "clarity weight loss" = 1 :=
  classify_vs_keyword_label_tie "clarity weight loss" "clarity weight loss"
    (by decide) (by decide) (by decide) (by decide) (by decide)

theorem expWaits_succ (k n : Nat) :
    expWaits k (n + 1) = min (2 ^ (k + 1)) 30 :: expWaits (k + 1) n := by
  simp only [expWaits, List.range_succ_eq_map, List.map_cons, List.map_map]
  congr 1
  apply List.map_congr_left
  intro i _
  simp only [Function.comp_apply]
  congr 2
  omega

/-- Every run of the retry loop performs at most `remaining` waits and its
waits follow the exponential schedule `min (2^attempt) 30`. -/
theorem retryGo_waits {α : Type} (step : Nat → Except Nat α) :
    ∀ (remaining attempt : Nat), ∃ n, n ≤ remaining ∧
      (retryGo step attempt remaining).2 = expWaits attempt n := by
  intro remaining
  induction remaining with
  | zero =>
    intro attempt
    exact ⟨0, by omega, by cases h : step attempt <;> simp [retryGo, h, expWaits]⟩
  | succ r ih =>
    intro attempt
    cases h : step attempt with
    | ok a => exact ⟨0, by omega, by simp [retryGo, h, expWaits]⟩
    | error s =>
      by_cases ht : isTransientStatus s
      · obtain ⟨n, hn, hw⟩ := ih (attempt + 1)
        exact ⟨n + 1, by omega, by simp [retryGo, h, ht, hw, expWaits_succ]⟩
      · exact ⟨0, by omega, by simp [retryGo, h, ht, expWaits]⟩

/-- C3: two transient failures followed by a success yield the success's
data after exactly the backoff waits 2 and 4; six consecutive transient
failures exhaust the 5-retry ceiling with waits 2, 4, 8, 16, 30 and
propagate the error; and for an arbitrary oracle the wait list follows the
schedule `min (2^attempt) 30` with at most 5 retries. -/
theorem retry_backoff_semantics {α : Type}
    (step stepF stepG : Nat → Except Nat α) (s0 s1 : Nat) (a : α)
    (h0 : step 0 = .error s0) (h1 : step 1 = .error s1) (h2 : step 2 = .ok a)
    (t0 : isTransientStatus s0 = true) (t1 : isTransientStatus s1 = true)
    (hF : ∀ n, n ≤ 5 → stepF n = .error 500) :
    execRetry step = (.ok a, [2, 4]) ∧
    execRetry stepF = (.error 500, [2, 4, 8, 16, 30]) ∧
    (execRetry stepG).2 = expWaits 0 (execRetry stepG).2.length ∧
    (execRetry stepG).2.length ≤ 5 := by
  refine ⟨?_, ?_, ?_, ?_⟩
  · simp [execRetry, retryGo, h0, h1, h2, t0, t1]
  · have e0 := hF 0 (by omega)
    have e1 := hF 1 (by omega)
    have e2 := hF 2 (by omega)
    have e3 := hF 3 (by omega)
    have e4 := hF 4 (by omega)
    have e5 := hF 5 (by omega)
    simp [execRetry, retryGo, e0, e1, e2, e3, e4, e5, isTransientStatus]
  · obtain ⟨n, hn, hw⟩ := retryGo_waits stepG 5 0
    have hth : (execRetry stepG).2 = expWaits 0 n := hw
    rw [hth]
    simp [expWaits]
  · obtain ⟨n, hn, hw⟩ := retryGo_waits stepG 5 0
    have hth : (execRetry stepG).2 = expWaits 0 n := hw
    rw [hth]
    simp [expWaits]
    omega

/-- C3 witness: the retry semantics evaluated on concrete oracles. -/
theorem retry_backoff_semantics_witness :
    execRetry (fun n => if n < 2 then Except.error 429 else Except.ok 7) = (.ok 7, [2, 4]) ∧
    execRetry (fun _ => (Except.error 500 : Except Nat Nat)) = (.error 500, [2, 4, 8, 16, 30]) ∧
    (execRetry (fun _ => (Except.ok 3 : Except Nat Nat))).2 =
      expWaits 0 (execRetry (fun _ => (Except.ok 3 : Except Nat Nat))).2.length ∧
    (execRetry (fun _ => (Except.ok 3 : Except Nat Nat))).2.length ≤ 5 :=
  retry_backoff_semantics _ _ _ 429 429 7 rfl rfl rfl rfl rfl (fun _ _ => rfl)

/-- C4: a page request that fails with 403 or 404 on its first execution
attempt ends retrieval for the video with exactly the records collected so
far, as a normal (non-error) return, after a single request with no
backoff wait (no retry). -/
theorem fetch_access_error_stops (hashHex : String → String) (title : String)
    (limit fetched : Nat) (acc : List CommentRecord)
    (pageFn : Nat → Except Nat PageResp) (rest : List (Nat → Except Nat PageResp))
    (s : Nat) (h1 : fetched < limit) (h2 : pageFn 0 = .error s)
    (h3 : s = 403 ∨ s = 404) :
    fetchTLCGo hashHex title limit (pageFn :: rest) fetched acc =
      ⟨.ok acc, [min 100 (limit - fetched)], []⟩ := by
  have hnt : isTransientStatus s = false := by
    rcases h3 with h | h <;> simp [h, isTransientStatus]
  have hr : execRetry pageFn = (.error s, []) := by
    simp [execRetry, retryGo, h2, hnt]
  simp [fetchTLCGo, h1, hr, h3]

/-- C4 witness: a 403 on the first page yields the empty record list,
one issued request, and no retry. -/
theorem fetch_access_error_stops_witness :
    fetchTLCGo (fun s => s) "T" 100 [fun _ => Except.error 403] 0 [] =
      ⟨.ok [], [100], []⟩ :=
  fetch_access_error_stops (fun s => s) "T" 100 0 [] (fun _ => Except.error 403)
    [] 403 (by omega) rfl (Or.inl rfl)

/-- Loop invariant behind C7: when every page request succeeds, the token
chain is well-formed, and the total item count still fits in the limit,
the fetch loop returns all records, issues the expected batch-size trace,
and performs no backoff waits. -/
theorem fetchTLCGo_all_ok (hashHex : String → String) (title : String) (limit : Nat) :
    ∀ (resps : List PageResp) (fetched : Nat) (acc : List CommentRecord),
      fetched + ((resps.map PageResp.items).flatten).length ≤ limit →
      tokenChain resps = true →
      fetched < limit →
      fetchTLCGo hashHex title limit (resps.map (fun p _ => Except.ok p)) fetched acc =
        ⟨.ok (acc ++ ((resps.map PageResp.items).flatten).map (mkRecord hashHex title)),
         expectedReqs limit fetched (resps.map (fun p => p.items.length)), []⟩ := by
  intro resps
  induction resps with
  | nil =>
    intro fetched acc h1 h2 h3
    simp [fetchTLCGo, h3, expectedReqs]
  | cons p rest ih =>
    intro fetched acc h1 h2 h3
    have h1x : fetched + (p.items.length + ((rest.map PageResp.items).flatten).length) ≤ limit := by
      simpa only [List.map_cons, List.flatten_cons, List.length_append] using h1
    have hret : execRetry (fun _ => (Except.ok p : Except Nat PageResp)) = (.ok p, []) := rfl
    have htake : p.items.take (limit - fetched) = p.items :=
      List.take_of_length_le (by omega)
    cases rest with
    | nil =>
      have hnext : p.hasNext = false := by
        simpa [tokenChain] using h2
      simp [fetchTLCGo, h3, hret, htake, hnext, expectedReqs, -List.length_take]
    | cons q t =>
      have hnext : p.hasNext = true := by
        simp [tokenChain] at h2
        exact h2.1
      have hchain : tokenChain (q :: t) = true := by
        simp [tokenChain] at h2
        exact h2.2
      by_cases hlim : fetched + p.items.length ≥ limit
      · have hempty : (((q :: t).map PageResp.items).flatten).length = 0 := by omega
        have hemptyl : (((q :: t).map PageResp.items).flatten) = [] :=
          List.length_eq_zero.mp hempty
        simp [fetchTLCGo, h3, hret, htake, hnext, hlim, expectedReqs, hemptyl,
          -List.length_take]
        simpa using hemptyl
      · have hlt : fetched + p.items.length < limit := by omega
        have ihr := ih (fetched + p.items.length)
          (acc ++ p.items.map (mkRecord hashHex title)) (by omega) hchain hlt
        simp only [List.map_cons] at ihr ⊢
        conv_lhs => rw [fetchTLCGo]
        simp [h3, hret, htake, hnext, hlim, ihr, expectedReqs, -List.length_take]

/-- The fetch loop never issues more page requests than there are pages. -/
theorem expectedReqs_length_le (limit : Nat) :
    ∀ (counts : List Nat) (fetched : Nat),
      (expectedReqs limit fetched counts).length ≤ counts.length := by
  intro counts
  induction counts with
  | nil => intro fetched; simp [expectedReqs]
  | cons c cs ih =>
    intro fetched
    by_cases h : fetched + c ≥ limit
    · simp [expectedReqs, h]
    · simp [expectedReqs, h]
      exact ih (fetched + c)

/-- C7: for a video whose source yields exactly `L ≤ limit` comments over
a well-formed token chain, the fetcher returns exactly the `L` records,
each issued page request asks for `min 100 (limit - fetched)` items
(`expectedReqs`), and no request is issued after the token disappears
(at most one request per provided page). -/
theorem fetch_exact_records (hashHex : String → String) (title : String)
    (limit L : Nat) (resps : List PageResp)
    (htot : ((resps.map PageResp.items).flatten).length = L)
    (hL : L ≤ limit) (hpos : 0 < limit) (hchain : tokenChain resps = true) :
    (fetchTopLevelComments hashHex title limit
        (resps.map (fun p _ => Except.ok p))).result =
      .ok (((resps.map PageResp.items).flatten).map (mkRecord hashHex title)) ∧
    (((resps.map PageResp.items).flatten).map (mkRecord hashHex title)).length = L ∧
    (fetchTopLevelComments hashHex title limit
        (resps.map (fun p _ => Except.ok p))).reqs =
      expectedReqs limit 0 (resps.map (fun p => p.items.length)) ∧
    (fetchTopLevelComments hashHex title limit
        (resps.map (fun p _ => Except.ok p))).reqs.length ≤ resps.length := by
  have hall := fetchTLCGo_all_ok hashHex title limit resps 0 [] (by omega) hchain hpos
  have hm : fetchTopLevelComments hashHex title limit
      (resps.map (fun p _ => Except.ok p)) =
      ⟨.ok (((resps.map PageResp.items).flatten).map (mkRecord hashHex title)),
       expectedReqs limit 0 (resps.map (fun p => p.items.length)), []⟩ := by
    rw [fetchTopLevelComments, hall]
    simp
  refine ⟨by rw [hm], by rw [List.length_map]; exact htot, by rw [hm], ?_⟩
  rw [hm]
  calc (expectedReqs limit 0 (resps.map (fun p => p.items.length))).length
      ≤ (resps.map (fun p => p.items.length)).length := expectedReqs_length_le _ _ _
    _ = resps.length := by simp

/-- C7 witness: the exact-record property on a concrete two-page source. -/
theorem fetch_exact_records_witness :
    (fetchTopLevelComments (fun s => s) "T" 100
        (samplePages.map (fun p _ => Except.ok p))).result =
      .ok (((samplePages.map PageResp.items).flatten).map (mkRecord (fun s => s) "T")) ∧
    (((samplePages.map PageResp.items).flatten).map (mkRecord (fun s => s) "T")).length = 2 ∧
    (fetchTopLevelComments (fun s => s) "T" 100
        (samplePages.map (fun p _ => Except.ok p))).reqs =
      expectedReqs 100 0 (samplePages.map (fun p => p.items.length)) ∧
    (fetchTopLevelComments (fun s => s) "T" 100
        (samplePages.map (fun p _ => Except.ok p))).reqs.length ≤ samplePages.length :=
  fetch_exact_records (fun s => s) "T" 100 2 samplePages rfl (by omega) (by omega) rfl

/-- Once past the guard, no later path of the loop raises the validation
error. -/
theorem fcvGo_no_validation (hashHex : String → String) (limit : Nat) :
    ∀ videos : List VideoSource,
      (fcvGo hashHex limit videos).1 ≠ .error .validation := by
  intro videos
  induction videos with
  | nil => simp [fcvGo]
  | cons v rest ih =>
    cases ht : getVideoTitle v with
    | error s => simp [fcvGo, ht]
    | ok title =>
      cases hr : (fetchTopLevelComments hashHex title limit v.pages).result with
      | error s => simp [fcvGo, ht, hr]
      | ok recs =>
        cases hrec : (fcvGo hashHex limit rest).1 with
        | error e =>
          have he : e ≠ .validation := by
            intro heq
            exact ih (by rw [hrec, heq])
          simp [fcvGo, ht, hr, hrec, he]
        | ok more => simp [fcvGo, ht, hr, hrec]

/-- C5: every per-video limit outside `[100, 500]` is rejected with the
validation error before any request is issued (request count 0), and for
every limit inside the interval (endpoints included) no validation error
is raised. -/
theorem per_video_limit_validation (hashHex : String → String)
    (videos : List VideoSource) (limit : Int) :
    ((limit < 100 ∨ limit > 500) →
      fetch_comments_for_videos hashHex videos limit = (.error .validation, 0)) ∧
    (100 ≤ limit → limit ≤ 500 →
      (fetch_comments_for_videos hashHex videos limit).1 ≠ .error .validation) := by
  constructor
  · intro h
    simp only [fetch_comments_for_videos]
    rw [if_pos h]
  · intro h1 h2
    have hno : ¬(limit < 100 ∨ limit > 500) := by omega
    simp only [fetch_comments_for_videos]
    rw [if_neg hno]
    exact fcvGo_no_validation hashHex limit.toNat videos

/-- C5 witness: limit 50 is rejected with no request issued; limit 200 is
not rejected. -/
theorem per_video_limit_validation_witness :
    fetch_comments_for_videos (fun s => s) [] 50 = (.error .validation, 0) ∧
    (fetch_comments_for_videos (fun s => s) [] 200).1 ≠ .error .validation :=
  ⟨(per_video_limit_validation (fun s => s) [] 50).1 (by omega),
   (per_video_limit_validation (fun s => s) [] 200).2 (by omega) (by omega)⟩

theorem mkUploadPages_small (ids : List String) (h1 : ids ≠ [])
    (h2 : ids.length ≤ 50) : mkUploadPages ids = [⟨ids, false⟩] := by
  rw [mkUploadPages]
  simp [h1, h2]

theorem mkUploadPages_big (ids : List String) (h2 : ids.length > 50) :
    mkUploadPages ids = ⟨ids.take 50, true⟩ :: mkUploadPages (ids.drop 50) := by
  have h1 : ids ≠ [] := by
    intro h
    rw [h] at h2
    simp at h2
  rw [mkUploadPages]
  rw [if_neg h1, if_neg (by omega)]

/-- Item loop: with all ids truthy and the remaining quota within the
page, the loop stops exactly at the cap, keeping the first
`K - acc.length` items of the page. -/
theorem collectVids_cap (K : Nat) :
    ∀ (items acc : List String),
      (∀ v ∈ items, v ≠ "") → acc.length < K → K - acc.length ≤ items.length →
      collectVids (some K) acc items = (acc ++ items.take (K - acc.length), true) := by
  intro items
  induction items with
  | nil =>
    intro acc hne hlt hle
    simp at hle
    omega
  | cons v vs ih =>
    intro acc hne hlt hle
    have hv : v ≠ "" := hne v (by simp)
    by_cases hk : K = acc.length + 1
    · have hcap : capReached (some K) (acc.length + 1) = true := by
        simp [capReached]
        omega
      have hd : K - acc.length = 1 := by omega
      simp [collectVids, hv, hcap, hd]
    · have hncap : capReached (some K) (acc.length + 1) = false := by
        simp [capReached]
        omega
      have ihr := ih (acc ++ [v]) (fun u hu => hne u (by simp [hu]))
        (by simp; omega) (by simp at hle ⊢; omega)
      have hd : K - acc.length = (K - (acc.length + 1)) + 1 := by omega
      simp [collectVids, hv, hncap, ihr, hd, List.take_succ_cons]

/-- Item loop: when even the whole page keeps the count under the cap,
all items are appended and the cap does not fire. -/
theorem collectVids_nocap (K : Nat) :
    ∀ (items acc : List String),
      (∀ v ∈ items, v ≠ "") → acc.length + items.length < K →
      collectVids (some K) acc items = (acc ++ items, false) := by
  intro items
  induction items with
  | nil => intro acc hne hlt; simp [collectVids]
  | cons v vs ih =>
    intro acc hne hlt
    have hv : v ≠ "" := hne v (by simp)
    have hncap : capReached (some K) (acc.length + 1) = false := by
      simp [capReached]
      simp at hlt
      omega
    have ihr := ih (acc ++ [v]) (fun u hu => hne u (by simp [hu]))
      (by simp at hlt ⊢; omega)
    simp [collectVids, hv, hncap, ihr]

/-- Page-loop invariant behind C6: while the remaining quota is positive
and smaller than the ids still available, the enumerator returns exactly
the quota's worth of ids in order, in `⌈quota/50⌉` page requests. -/
theorem fetchVids_take (K : Nat) :
    ∀ (n : Nat) (ids acc : List String), ids.length ≤ n →
      (∀ v ∈ ids, v ≠ "") →
      acc.length < K → K - acc.length < ids.length →
      fetchVidsPages (some K) (mkUploadPages ids) acc =
        (acc ++ ids.take (K - acc.length), (K - acc.length + 49) / 50) := by
  intro n
  induction n with
  | zero =>
    intro ids acc h0 _ _ hd
    omega
  | succ n ih =>
    intro ids acc h0 hne hlt hd
    have hidne : ids ≠ [] := by
      intro h
      rw [h] at hd
      simp at hd
    by_cases hs : ids.length ≤ 50
    · rw [mkUploadPages_small ids hidne hs]
      have hcap := collectVids_cap K ids acc hne hlt (by omega)
      simp [fetchVidsPages, hcap]
      omega
    · rw [mkUploadPages_big ids (by omega)]
      have htl : (ids.take 50).length = 50 := by
        simp
        omega
      by_cases hdle : K - acc.length ≤ 50
      · have hcap := collectVids_cap K (ids.take 50) acc
          (fun u hu => hne u (List.take_subset _ _ hu)) hlt (by omega)
        have htt : (ids.take 50).take (K - acc.length) = ids.take (K - acc.length) := by
          rw [List.take_take]
          congr 1
          omega
        simp [fetchVidsPages, hcap, htt]
        omega
      · have hnocap := collectVids_nocap K (ids.take 50) acc
          (fun u hu => hne u (List.take_subset _ _ hu)) (by omega)
        have ihr := ih (ids.drop 50) (acc ++ ids.take 50)
          (by simp; omega)
          (fun u hu => hne u (List.drop_subset _ _ hu))
          (by simp [htl]; omega)
          (by simp [htl]; omega)
        simp [fetchVidsPages, hnocap, ihr, htl]
        constructor
        · have h5 : K - acc.length = 50 + (K - acc.length - 50) := by omega
          rw [h5, List.take_add]
          congr 2
        · omega

/-- C6 (amended): for a channel with `N` truthy uploads and a cap `K`
with `1 ≤ K < N`, the enumerator returns exactly the first `K`
identifiers in the provided order after exactly `⌈K/50⌉ = (K+49)/50`
page requests. -/
theorem enumerator_cap (ids : List String) (K : Nat) (u : String)
    (hne : ∀ v ∈ ids, v ≠ "") (h1 : 1 ≤ K) (h2 : K < ids.length) :
    fetch_video_ids_from_channel (some u) (mkUploadPages ids) (some K) =
      .ok (ids.take K, (K + 49) / 50) := by
  have h := fetchVids_take K ids.length ids [] (le_refl _) hne (by simp; omega)
    (by simpa using h2)
  simp only [fetch_video_ids_from_channel, h]
  simp

/-- C6 counterexample for the cap `K = 0`: the cap is only tested after an
id has been appended, so a one-upload channel with cap 0 returns one
identifier after one page request, not `0` identifiers in `⌈0/50⌉ = 0`
requests as the unrestricted claim would demand. -/
theorem enumerator_cap_zero_counterexample :
    fetch_video_ids_from_channel (some "UU1") (mkUploadPages ["a"]) (some 0) =
      .ok (["a"], 1) ∧
    fetch_video_ids_from_channel (some "UU1") (mkUploadPages ["a"]) (some 0) ≠
      .ok (([] : List String), 0) := by
  have h : mkUploadPages ["a"] = [⟨["a"], false⟩] :=
    mkUploadPages_small _ (by simp) (by simp)
  constructor
  · rw [h]
    rfl
  · rw [h]
    simp [fetch_video_ids_from_channel, fetchVidsPages, collectVids, capReached]

/-- C6 witness: 60 uploads, cap 51: the first 51 ids in order, in 2 page
requests. -/
theorem enumerator_cap_witness :
    fetch_video_ids_from_channel (some "UU1")
        (mkUploadPages (List.replicate 60 "v")) (some 51) =
      .ok ((List.replicate 60 "v").take 51, (51 + 49) / 50) :=
  enumerator_cap (List.replicate 60 "v") 51 "UU1"
    (by intro v hv; simp at hv; simp [hv]) (by omega) (by simp)

/-- C8: whenever the stripped input contains a canonical-ID-shaped token
(strategy (a) extracts `cid`) and also a handle-shaped token (strategy
(b)'s extractor succeeds), the resolver returns the canonical-ID
extraction, never consulting the handle or search oracles. -/
theorem resolver_canonical_first (handleApi searchApi : String → Option String)
    (value cid h : String)
    (hc : tryExtractChannelId (pyStripStr value) = some cid)
    (_hh : tryExtractHandle (pyStripStr value) = some h) :
    resolve_channel_id handleApi searchApi value = .ok cid := by
  have hne : pyStripStr value ≠ "" := by
    intro he
    rw [he] at hc
    have hz : tryExtractChannelId "" = none := by decide
    rw [hz] at hc
    exact Option.noConfusion hc
  simp [resolve_channel_id, hne, hc]

set_option maxRecDepth 8192 in

/-- C8 witness: an input that is handle-shaped (leading `@`) and embeds a
canonical channel URL resolves to the extracted canonical id, with both
remote oracles returning nothing. -/
theorem resolver_canonical_first_witness :
    resolve_channel_id (fun _ => none) (fun _ => none)
      "@h youtube.com/channel/UCabcdefghij0123456789" =
      .ok "UCabcdefghij0123456789" :=
  resolver_canonical_first (fun _ => none) (fun _ => none)
    "@h youtube.com/channel/UCabcdefghij0123456789" "UCabcdefghij0123456789"
    "@h youtube.com/channel/UCabcdefghij0123456789" (by decide) (by decide)

/-- C1 counterexample: with a resolver that fails on the first channel and
a runner that always succeeds, the sibling channel "beta" is not processed
(the batch aborts), although "beta" alone would have been processed. -/
theorem batch_abort_counterexample :
    (processChannels (fun _ => .error "quota") (fun _ _ => .ok ())
        [⟨"alpha", ""⟩, ⟨"beta", "UCx"⟩]).1 = [] ∧
    "beta" ∉ (processChannels (fun _ => .error "quota") (fun _ _ => .ok ())
        [⟨"alpha", ""⟩, ⟨"beta", "UCx"⟩]).1 ∧
    (processChannels (fun _ => .error "quota") (fun _ _ => .ok ())
        [⟨"beta", "UCx"⟩]).1 = ["beta"] := by
  refine ⟨rfl, by decide, rfl⟩

/-- C1 (amended): a single channel's failure aborts the whole batch: when
a channel's resolution fails, `main` dies by `SystemExit` with no channel
processed and every sibling (before or after) skipped; when
`_run_for_channel` raises, the exception propagates likewise.  There is no
batch-level isolation. -/
theorem batch_failure_aborts
    (resolver r2 : String → Except String String)
    (runner rn2 : String → String → Except Nat Unit)
    (ch ch2 : ChannelEntry) (rest rest2 : List ChannelEntry)
    (m : String) (e : Nat)
    (h1 : pyStripStr ch.channelId = "")
    (h2 : resolver (pyStripStr ch.name) = .error m)
    (h3 : pyStripStr ch2.channelId ≠ "")
    (h4 : rn2 (pyStripStr ch2.name) (pyStripStr ch2.channelId) = .error e) :
    processChannels resolver runner (ch :: rest) = ([], some (.resolveFailed m)) ∧
    processChannels r2 rn2 (ch2 :: rest2) = ([], some (.runFailed e)) := by
  constructor
  · simp only [processChannels]
    rw [if_pos h1]
    simp [h2]
  · simp only [processChannels]
    rw [if_neg h3]
    simp [h4]

/-- C1 witness: both abort scenarios on concrete two-channel batches. -/
theorem batch_failure_aborts_witness :
    processChannels (fun _ => .error "quota") (fun _ _ => .ok ())
      [⟨"alpha", ""⟩, ⟨"beta", "UCx"⟩] = ([], some (.resolveFailed "quota")) ∧
    processChannels (fun n => .ok n) (fun _ _ => .error 500)
      [⟨"alpha", "UCy"⟩, ⟨"beta", "UCx"⟩] = ([], some (.runFailed 500)) :=
  batch_failure_aborts (fun _ => .error "quota") (fun n => .ok n)
    (fun _ _ => .ok ()) (fun _ _ => .error 500)
    ⟨"alpha", ""⟩ ⟨"alpha", "UCy"⟩ [⟨"beta", "UCx"⟩] [⟨"beta", "UCx"⟩]
    "quota" 500 (by decide) rfl (by decide) rfl

theorem isSpaceB_toNat {c : Char} (h : isSpaceB c = true) :
    c.toNat = 32 ∨ c.toNat = 9 ∨ c.toNat = 10 ∨ c.toNat = 13 ∨
    c.toNat = 11 ∨ c.toNat = 12 := by
  simp [isSpaceB] at h
  rcases h with ((((h | h) | h) | h) | h) | h <;> subst h <;> decide

theorem space_eq_toNat {c : Char} (h : c = ' ') : c.toNat = 32 := by
  subst h
  decide

theorem solid_not_space {c : Char} (h : solidChar c = true) : isSpaceB c = false := by
  simp [solidChar] at h
  by_contra hs
  simp at hs
  rcases isSpaceB_toNat hs with h2 | h2 | h2 | h2 | h2 | h2 <;> omega

theorem shape_space_is_blank {c : Char} (h : solidChar c = true ∨ c = ' ')
    (hs : isSpaceB c = true) : c = ' ' := by
  rcases h with h | h
  · rw [solid_not_space h] at hs
    exact Bool.noConfusion hs
  · exact h

theorem shape_toLower_fixed {c : Char} (h : solidChar c = true ∨ c = ' ') :
    c.toLower = c := by
  have hn : ¬(c.toNat ≥ 65 ∧ c.toNat ≤ 90) := by
    rcases h with h | h
    · simp [solidChar] at h
      omega
    · have := space_eq_toNat h
      omega
  simp [Char.toLower]
  intro h1 h2
  exact absurd ⟨h1, h2⟩ hn

theorem keep_not_space_solid {c : Char} (hk : cleanKeepChar c = true)
    (hs : isSpaceB c = false) : solidChar c = true := by
  simp [cleanKeepChar, hs] at hk
  simp [solidChar]
  omega

theorem filterSub_keep (l : List Char) :
    ∀ c ∈ filterSub l, cleanKeepChar c = true := by
  intro c hc
  simp [filterSub] at hc
  obtain ⟨a, _, ha⟩ := hc
  by_cases h : cleanKeepChar a
  · rw [if_pos h] at ha
    rw [← ha]
    exact h
  · rw [if_neg h] at ha
    rw [← ha]
    decide

theorem squeezeRun_chars :
    ∀ (l : List Char) (b : Bool), (∀ c ∈ l, cleanKeepChar c = true) →
      ∀ c ∈ squeezeRun b l, solidChar c = true ∨ c = ' ' := by
  intro l
  induction l with
  | nil => intro b _ c hc; simp [squeezeRun] at hc
  | cons a as ih =>
    intro b hk c hc
    have hka : cleanKeepChar a = true := hk a (by simp)
    have hkas : ∀ x ∈ as, cleanKeepChar x = true := fun x hx => hk x (by simp [hx])
    by_cases hs : isSpaceB a
    · rw [squeezeRun, if_pos hs] at hc
      cases b with
      | true => exact ih true hkas c hc
      | false =>
        rcases List.mem_cons.mp hc with h | h
        · right; exact h
        · exact ih true hkas c h
    · rw [squeezeRun, if_neg hs] at hc
      rcases List.mem_cons.mp hc with h | h
      · left; rw [h]; exact keep_not_space_solid hka (by simpa using hs)
      · exact ih false hkas c h

theorem squeezeRun_true_head (l : List Char) :
    headNotSpace (squeezeRun true l) = true := by
  induction l with
  | nil => decide
  | cons a as ih =>
    by_cases hs : isSpaceB a
    · rw [squeezeRun, if_pos hs]
      exact ih
    · rw [squeezeRun, if_neg hs]
      simp [headNotSpace, hs]

theorem noAdj_cons_of (a : Char) (l : List Char) (h : noAdjSpaces l = true)
    (hh : headNotSpace l = true ∨ ¬(a = ' ')) : noAdjSpaces (a :: l) = true := by
  cases l with
  | nil => simp [noAdjSpaces]
  | cons b t =>
    have hb : (!(a = ' ') || !(b = ' ')) = true := by
      rcases hh with hh | hh
      · simp [headNotSpace] at hh
        have : ¬(b = ' ') := by
          intro hbe
          rw [hbe] at hh
          simp [isSpaceB] at hh
        simp [this]
      · simp [hh]
    simp only [noAdjSpaces, hb, h, Bool.and_self]

theorem squeezeRun_noAdj :
    ∀ (l : List Char) (b : Bool), noAdjSpaces (squeezeRun b l) = true := by
  intro l
  induction l with
  | nil => intro b; simp [squeezeRun, noAdjSpaces]
  | cons a as ih =>
    intro b
    by_cases hs : isSpaceB a
    · rw [squeezeRun, if_pos hs]
      cases b with
      | true => exact ih true
      | false =>
        exact noAdj_cons_of _ _ (ih true) (Or.inl (squeezeRun_true_head as))
    · rw [squeezeRun, if_neg hs]
      refine noAdj_cons_of _ _ (ih false) (Or.inr ?_)
      intro hae
      rw [hae] at hs
      simp [isSpaceB] at hs

theorem noAdj_tail {a : Char} {l : List Char} (h : noAdjSpaces (a :: l) = true) :
    noAdjSpaces l = true := by
  cases l with
  | nil => simp [noAdjSpaces]
  | cons b t =>
    simp only [noAdjSpaces, Bool.and_eq_true] at h
    exact h.2

theorem noAdj_dropWhile (p : Char → Bool) :
    ∀ l : List Char, noAdjSpaces l = true → noAdjSpaces (l.dropWhile p) = true := by
  intro l
  induction l with
  | nil => intro _; simp [noAdjSpaces]
  | cons a as ih =>
    intro h
    by_cases hp : p a
    · rw [List.dropWhile_cons_of_pos hp]
      exact ih (noAdj_tail h)
    · rw [List.dropWhile_cons_of_neg hp]
      exact h

theorem dTS_cases (c : Char) (cs : List Char) :
    dropTrailingSpace (c :: cs) = [] ∨
    dropTrailingSpace (c :: cs) = c :: dropTrailingSpace cs := by
  rw [dropTrailingSpace]
  by_cases h : (dropTrailingSpace cs).isEmpty && isSpaceB c
  · left; rw [if_pos h]
  · right; rw [if_neg h]

theorem mem_dTS : ∀ (l : List Char) (c : Char), c ∈ dropTrailingSpace l → c ∈ l := by
  intro l
  induction l with
  | nil => intro c hc; simp [dropTrailingSpace] at hc
  | cons a as ih =>
    intro c hc
    rcases dTS_cases a as with h | h <;> rw [h] at hc
    · simp at hc
    · rcases List.mem_cons.mp hc with h2 | h2
      · simp [h2]
      · simp [ih c h2]

theorem noAdj_dTS : ∀ l : List Char, noAdjSpaces l = true →
    noAdjSpaces (dropTrailingSpace l) = true := by
  intro l
  induction l with
  | nil => intro _; simp [dropTrailingSpace, noAdjSpaces]
  | cons a as ih =>
    intro h
    rcases dTS_cases a as with hc | hc <;> rw [hc]
    · simp [noAdjSpaces]
    · have htail := ih (noAdj_tail h)
      cases as with
      | nil =>
        simp [dropTrailingSpace, noAdjSpaces]
      | cons b bs =>
        rcases dTS_cases b bs with hc2 | hc2 <;> rw [hc2]
        · simp [noAdjSpaces]
        · rw [hc2] at htail
          have hpair : (!(a = ' ') || !(b = ' ')) = true := by
            simp only [noAdjSpaces, Bool.and_eq_true] at h
            exact h.1
          simp only [noAdjSpaces, hpair, htail, Bool.and_self]

theorem headNS_dTS (l : List Char) (h : headNotSpace l = true) :
    headNotSpace (dropTrailingSpace l) = true := by
  cases l with
  | nil => simp [dropTrailingSpace, headNotSpace]
  | cons a as =>
    rcases dTS_cases a as with hc | hc <;> rw [hc]
    · simp [headNotSpace]
    · simpa [headNotSpace] using h

theorem lastNS_cons (c : Char) (r : List Char) (hr : r ≠ []) :
    lastNotSpace (c :: r) = lastNotSpace r := by
  cases r with
  | nil => exact absurd rfl hr
  | cons d ds => rw [lastNotSpace]

theorem lastNS_dTS : ∀ l : List Char, lastNotSpace (dropTrailingSpace l) = true := by
  intro l
  induction l with
  | nil => simp [dropTrailingSpace, lastNotSpace]
  | cons a as ih =>
    rw [dropTrailingSpace]
    by_cases h : (dropTrailingSpace as).isEmpty && isSpaceB a
    · rw [if_pos h]
      simp [lastNotSpace]
    · rw [if_neg h]
      by_cases he : (dropTrailingSpace as).isEmpty
      · have he2 : dropTrailingSpace as = [] := by
          simpa using he
        have hs : isSpaceB a = false := by
          simp at h
          exact h he2
        rw [he2]
        simp [lastNotSpace, hs]
      · have : dropTrailingSpace as ≠ [] := by
          intro hx
          rw [hx] at he
          simp at he
        rw [lastNS_cons a _ this]
        exact ih

theorem mem_dropWhile_sub (p : Char → Bool) :
    ∀ l : List Char, ∀ c ∈ l.dropWhile p, c ∈ l := by
  intro l
  induction l with
  | nil => intro c hc; simp at hc
  | cons a as ih =>
    intro c hc
    by_cases hp : p a
    · rw [List.dropWhile_cons_of_pos hp] at hc
      simp [ih c hc]
    · rw [List.dropWhile_cons_of_neg hp] at hc
      exact hc

theorem headNS_dropWhile (l : List Char) :
    headNotSpace (l.dropWhile isSpaceB) = true := by
  cases hx : l.dropWhile isSpaceB with
  | nil => simp [headNotSpace]
  | cons c cs =>
    have := List.head?_dropWhile_not isSpaceB l
    rw [hx] at this
    simp at this
    simp [headNotSpace, this]

theorem pyStrip_shape (l : List Char)
    (hchars : ∀ c ∈ l, solidChar c = true ∨ c = ' ')
    (hadj : noAdjSpaces l = true) :
    cleanShape (pyStrip l) = true := by
  have h1 : ∀ c ∈ pyStrip l, solidChar c = true ∨ c = ' ' := by
    intro c hc
    apply hchars
    have hc2 := mem_dTS _ _ hc
    exact mem_dropWhile_sub isSpaceB l c hc2
  have h2 : noAdjSpaces (pyStrip l) = true :=
    noAdj_dTS _ (noAdj_dropWhile _ _ hadj)
  have h3 : headNotSpace (pyStrip l) = true :=
    headNS_dTS _ (headNS_dropWhile l)
  have h4 : lastNotSpace (pyStrip l) = true := lastNS_dTS _
  simp [cleanShape, h2, h3, h4]
  intro c hc
  rcases h1 c hc with h | h
  · simp [h]
  · simp [h]

theorem cleanShape_cleanList (l : List Char) : cleanShape (cleanList l) = true := by
  have hkeep := filterSub_keep ((emojiSub (urlSub l)).map Char.toLower)
  have hchars := squeezeRun_chars _ false hkeep
  have hadj := squeezeRun_noAdj (filterSub ((emojiSub (urlSub l)).map Char.toLower)) false
  exact pyStrip_shape _ hchars hadj

theorem ciPref_exists_mem :
    ∀ (ps l r : List Char), ciPref ps l = some r →
      ∀ p ∈ ps, ∃ c ∈ l, c.toLower = p := by
  intro ps
  induction ps with
  | nil => intro l r _ p hp; simp at hp
  | cons q qs ih =>
    intro l r hc p hp
    cases l with
    | nil => simp [ciPref] at hc
    | cons c cs =>
      rw [ciPref] at hc
      by_cases he : c.toLower = q
      · rw [if_pos he] at hc
        rcases List.mem_cons.mp hp with h | h
        · exact ⟨c, by simp, by rw [he, h]⟩
        · obtain ⟨d, hd, hde⟩ := ih cs r hc p h
          exact ⟨d, by simp [hd], hde⟩
      · rw [if_neg he] at hc
        exact absurd hc (by simp)

theorem ciPref_mem_subset :
    ∀ (ps l r : List Char), ciPref ps l = some r → ∀ x ∈ r, x ∈ l := by
  intro ps
  induction ps with
  | nil =>
    intro l r hc x hx
    rw [ciPref] at hc
    cases hc
    exact hx
  | cons q qs ih =>
    intro l r hc x hx
    cases l with
    | nil => simp [ciPref] at hc
    | cons c cs =>
      rw [ciPref] at hc
      by_cases he : c.toLower = q
      · rw [if_pos he] at hc
        exact List.mem_cons_of_mem c (ih cs r hc x hx)
      · rw [if_neg he] at hc
        exact absurd hc (by simp)

theorem urlTail_none (k : Nat) (r : List Char)
    (h : ∀ c ∈ r, c.toLower ≠ ':') : urlTail k r = none := by
  cases hc : ciPref "://".toList r with
  | none => rw [urlTail, hc]
  | some r2 =>
    exfalso
    obtain ⟨c, hcm, hce⟩ := ciPref_exists_mem _ _ _ hc ':' (by decide)
    exact h c hcm hce

theorem matchURLAt_none (l : List Char)
    (h1 : ∀ c ∈ l, c.toLower ≠ ':') (h2 : ∀ c ∈ l, c.toLower ≠ '.') :
    matchURLAt l = none := by
  rw [matchURLAt]
  cases hh : ciPref "http".toList l with
  | some r1 =>
    have hsub1 : ∀ x ∈ r1, x ∈ l := ciPref_mem_subset _ _ _ hh
    have ht1 : urlTail 4 r1 = none :=
      urlTail_none _ _ (fun c hc => h1 c (hsub1 c hc))
    cases r1 with
    | nil => simp [ht1]
    | cons c r2 =>
      have ht2 : urlTail 5 r2 = none :=
        urlTail_none _ _ (fun d hd => h1 d (hsub1 d (by simp [hd])))
      by_cases he : c.toLower = 's'
      · simp [he, ht1, ht2]
      · simp [he, ht1]
  | none =>
    cases hw : ciPref "www.".toList l with
    | some r1 =>
      exfalso
      obtain ⟨c, hcm, hce⟩ := ciPref_exists_mem _ _ _ hw '.' (by decide)
      exact h2 c hcm hce
    | none => simp

theorem urlSub_fix : ∀ l : List Char,
    (∀ c ∈ l, c.toLower ≠ ':') → (∀ c ∈ l, c.toLower ≠ '.') →
    urlSubRun false l = l := by
  intro l
  induction l with
  | nil => intro _ _; rfl
  | cons a as ih =>
    intro h1 h2
    have hm := matchURLAt_none (a :: as) h1 h2
    conv_lhs => rw [urlSubRun]
    rw [hm]
    simp only [Bool.false_eq_true, if_false]
    rw [ih (fun c hc => h1 c (by simp [hc])) (fun c hc => h2 c (by simp [hc]))]

theorem emojiSub_fix : ∀ l : List Char, (∀ c ∈ l, isEmojiChar c = false) →
    emojiSubRun false l = l := by
  intro l
  induction l with
  | nil => intro _; rfl
  | cons a as ih =>
    intro h
    have ha : isEmojiChar a = false := h a (by simp)
    rw [emojiSubRun, if_neg (by simp [ha])]
    rw [ih (fun c hc => h c (by simp [hc]))]

theorem map_fixed {f : Char → Char} : ∀ l : List Char,
    (∀ c ∈ l, f c = c) → l.map f = l := by
  intro l
  induction l with
  | nil => intro _; rfl
  | cons a as ih =>
    intro h
    rw [List.map_cons, h a (by simp), ih (fun c hc => h c (by simp [hc]))]

theorem squeezeRun_state_eq (l : List Char) (h : headNotSpace l = true) :
    squeezeRun true l = squeezeRun false l := by
  cases l with
  | nil => rfl
  | cons a as =>
    simp [headNotSpace] at h
    rw [squeezeRun, squeezeRun, if_neg (by simp [h]), if_neg (by simp [h])]

theorem squeeze_fix : ∀ l : List Char,
    (∀ c ∈ l, solidChar c = true ∨ c = ' ') → noAdjSpaces l = true →
    squeezeRun false l = l := by
  intro l
  induction l with
  | nil => intro _ _; rfl
  | cons a as ih =>
    intro hchars hadj
    by_cases hs : isSpaceB a
    · have ha : a = ' ' := shape_space_is_blank (hchars a (by simp)) hs
      have hh : headNotSpace as = true := by
        cases as with
        | nil => rfl
        | cons b t =>
          have hpair : (!(a = ' ') || !(b = ' ')) = true := by
            simp only [noAdjSpaces, Bool.and_eq_true] at hadj
            exact hadj.1
          have hb : ¬(b = ' ') := by
            rcases Bool.or_eq_true_iff.mp hpair with hx | hx
            · simp [ha] at hx
            · simpa using hx
          rcases hchars b (by simp) with hsol | hsp
          · simp [headNotSpace, solid_not_space hsol]
          · exact absurd hsp hb
      rw [squeezeRun, if_pos hs, squeezeRun_state_eq as hh,
        ih (fun c hc => hchars c (by simp [hc])) (noAdj_tail hadj), ha]
      rfl
    · rw [squeezeRun, if_neg hs,
        ih (fun c hc => hchars c (by simp [hc])) (noAdj_tail hadj)]

theorem dropWhile_fix (l : List Char) (h : headNotSpace l = true) :
    l.dropWhile isSpaceB = l := by
  cases l with
  | nil => rfl
  | cons a as =>
    simp [headNotSpace] at h
    rw [List.dropWhile_cons_of_neg (by simp [h])]

theorem dTS_fix : ∀ l : List Char, lastNotSpace l = true →
    dropTrailingSpace l = l := by
  intro l
  induction l with
  | nil => intro _; rfl
  | cons a as ih =>
    intro h
    cases as with
    | nil =>
      simp [lastNotSpace] at h
      rw [dropTrailingSpace]
      simp [dropTrailingSpace, h]
    | cons b t =>
      have htail : lastNotSpace (b :: t) = true := by
        rw [lastNotSpace] at h
        exact h
      have hd : dropTrailingSpace (b :: t) = b :: t := ih htail
      rw [dropTrailingSpace, hd]
      simp

theorem cleanList_fix (r : List Char) (h : cleanShape r = true) : cleanList r = r := by
  have hc := h
  simp only [cleanShape, Bool.and_eq_true, List.all_eq_true] at hc
  obtain ⟨⟨⟨hchars0, hadj⟩, hhead⟩, hlast⟩ := hc
  have hchars : ∀ c ∈ r, solidChar c = true ∨ c = ' ' := by
    intro c hcm
    have := hchars0 c hcm
    rcases Bool.or_eq_true_iff.mp this with hx | hx
    · left; exact hx
    · right; simpa using hx
  have hfix : ∀ c ∈ r, c.toLower = c := fun c hc => shape_toLower_fixed (hchars c hc)
  have hcolon : ∀ c ∈ r, c.toLower ≠ ':' := by
    intro c hcm heq
    rw [hfix c hcm] at heq
    rcases hchars c hcm with hx | hx
    · simp [solidChar] at hx
      have : c.toNat = 58 := by rw [heq]; decide
      omega
    · rw [hx] at heq
      exact absurd heq (by decide)
  have hdot : ∀ c ∈ r, c.toLower ≠ '.' := by
    intro c hcm heq
    rw [hfix c hcm] at heq
    rcases hchars c hcm with hx | hx
    · simp [solidChar] at hx
      have : c.toNat = 46 := by rw [heq]; decide
      omega
    · rw [hx] at heq
      exact absurd heq (by decide)
  have hkeep : ∀ c ∈ r, cleanKeepChar c = true := by
    intro c hcm
    rcases hchars c hcm with hx | hx
    · simp [solidChar] at hx
      simp [cleanKeepChar]
      omega
    · rw [hx]
      decide
  have hemoji : ∀ c ∈ r, isEmojiChar c = false := by
    intro c hcm
    rcases hchars c hcm with hx | hx
    · simp [solidChar] at hx
      simp [isEmojiChar]
      omega
    · rw [hx]
      decide
  have hfilter : filterSub r = r := by
    rw [filterSub]
    apply map_fixed
    intro c hcm
    rw [if_pos (hkeep c hcm)]
  rw [cleanList, urlSub, urlSub_fix r hcolon hdot, emojiSub, emojiSub_fix r hemoji,
    map_fixed r hfix, hfilter, squeezeSpace, squeeze_fix r hchars hadj, pyStrip,
    dropWhile_fix r hhead, dTS_fix r hlast]

/-- C10: `clean_text` is idempotent, its output contains only lowercase
ASCII alphanumerics, Devanagari characters (U+0900-U+097F) and single
internal spaces with no leading or trailing whitespace (`cleanShape`),
and `clean_text None = ""`. -/
theorem clean_text_idempotent_shape (t : Option String) :
    clean_text (some (clean_text t)) = clean_text t ∧
    cleanShape (clean_text t).toList = true ∧
    clean_text none = "" := by
  refine ⟨?_, ?_, rfl⟩
  · cases t with
    | none => decide
    | some s =>
      show clean_text (some (String.mk (cleanList s.toList))) = String.mk (cleanList s.toList)
      rw [clean_text]
      exact congrArg String.mk (cleanList_fix _ (cleanShape_cleanList s.toList))
  · cases t with
    | none => decide
    | some s =>
      exact cleanShape_cleanList s.toList
